import Mathlib

/-!
Verification development for the sustainability-report-parser repository.

The Python sources are shallowly embedded here:
  * `models.py`      → `Node`, `Section`
  * `section_tree.py`→ `build_tree_from_entries`, `finalize_tree` (with
                        `_assign_end_pages` as `assignChildren`/`assignInto`),
                        `flatten_sections`, `tree_to_markdown`
  * `toc_detect.py`  → `find_toc_pages`, `parse_toc_entries_from_pages`
  * `segment.py`     → `detect_headings`
  * `api.py`         → `parse_pdf` (the strategy cascade; PDF reading is an
                        external collaborator and enters as the `pages_text`
                        and `outline` arguments)

Python machine-level behaviour is modelled explicitly: `x or y` truthiness on
ints (`pyOrI`), `str.strip` (`pyStrip`), `str.splitlines` (`pySplitlines`),
regular expressions as character-level parsers (documented at each
definition), list slices, and Python's stable sort by `(page, level, title)`
keys (`pySorted`, a stable insertion sort; a stable sort's output is uniquely
determined by the key order, so this coincides with CPython's Timsort).
The tree type is a mutual inductive (`Node` / `NodeList`) so that every
operation is structurally recursive and computable by the kernel.
-/

namespace SustainSpec

/-! ### Python string/char helpers -/

/-- Python whitespace class `\s` / `str.strip` default set:
space, tab, newline, carriage return, vertical tab, form feed. -/
def pyIsSpace (c : Char) : Bool :=
  c = ' ' || c = '\t' || c = '\n' || c = '\r' || c = '\x0b' || c = '\x0c'

/-- Strip Python whitespace from both ends of a char list. -/
def pyStripChars (cs : List Char) : List Char :=
  ((cs.dropWhile pyIsSpace).reverse.dropWhile pyIsSpace).reverse

/-- Python `str.strip()` (no argument: strips whitespace on both ends). -/
def pyStrip (s : String) : String :=
  String.mk (pyStripChars s.toList)

/-- Python `str.rstrip(chars)`: drop chars of the given set from the right end. -/
def rstripSet (inSet : Char → Bool) (cs : List Char) : List Char :=
  (cs.reverse.dropWhile inSet).reverse

/-- Python `str.lower()` restricted to ASCII (all inputs of interest are ASCII). -/
def pyLowerChar (c : Char) : Char := c.toLower

/-- Python `str.lower()` on a string. -/
def pyLower (s : String) : String := String.mk (s.toList.map pyLowerChar)

/-- Python `str.splitlines()` on the line boundaries `\r\n`, `\n`, `\r`:
a boundary always emits the accumulated piece; the final piece is emitted
only when non-empty (so `"".splitlines() == []` and `"a\n".splitlines() == ["a"]`). -/
def splitlinesAux : List Char → List Char → List String
  | [], acc => if acc.isEmpty then [] else [String.mk acc.reverse]
  | '\r' :: '\n' :: rest, acc => String.mk acc.reverse :: splitlinesAux rest []
  | '\n' :: rest, acc => String.mk acc.reverse :: splitlinesAux rest []
  | '\r' :: rest, acc => String.mk acc.reverse :: splitlinesAux rest []
  | c :: rest, acc => splitlinesAux rest (c :: acc)

/-- Python `str.splitlines()`. -/
def pySplitlines (s : String) : List String := splitlinesAux s.toList []

/-- Python truthiness-based `x or d` for an optional int:
`None` and `0` are falsy, any other int is returned unchanged. -/
def pyOrI (x : Option Int) (d : Int) : Int :=
  match x with
  | none => d
  | some v => if v = 0 then d else v

/-- Python `x or y or d` for two optional ints (chained truthiness). -/
def pyOrI2 (x y : Option Int) (d : Int) : Int :=
  match x with
  | none => pyOrI y d
  | some v => if v = 0 then pyOrI y d else v

/-- Python list slice `l[a:b]` for `0 ≤ a ≤ b` (out-of-range indices clamp). -/
def listSlice {α : Type} (l : List α) (a b : Nat) : List α :=
  (l.drop a).take (b - a)

/-- Strict lexicographic comparison of char lists, matching Python's
code-point string comparison. -/
def lexLtChars : List Char → List Char → Bool
  | [], [] => false
  | [], _ :: _ => true
  | _ :: _, [] => false
  | a :: as, b :: bs => if a < b then true else if b < a then false else lexLtChars as bs

/-- Python `s < t` on strings (code-point lexicographic). -/
def strLt (a b : String) : Bool := lexLtChars a.toList b.toList

/-- Boolean substring containment, Python's `pat in s`. -/
def containsSub (pat s : List Char) : Bool :=
  (List.range (s.length + 1)).any (fun i => pat.isPrefixOf (s.drop i))

/-- Decimal value of a digit list (Python `int(...)` applied to a match of
`\d{1,4}`). -/
def digitsVal (ds : List Char) : Nat :=
  ds.foldl (fun a c => a * 10 + (c.toNat - '0'.toNat)) 0

/-- Python word character for `\b` boundaries: `[A-Za-z0-9_]` (ASCII model). -/
def pyIsWord (c : Char) : Bool := c.isAlpha || c.isDigit || c = '_'

/-- Collapse every maximal whitespace run into a single space,
Python's `re.sub(r"\s+", " ", s)`. -/
def collapseWS (cs : List Char) : List Char :=
  cs.foldr
    (fun c acc =>
      if pyIsSpace c then
        if acc.head? = some ' ' then acc else ' ' :: acc
      else c :: acc) []

/-- Number of words of Python `s.split()` (maximal non-whitespace runs). -/
def countWords (cs : List Char) : Nat :=
  (cs.foldl
    (fun (st : Nat × Bool) c =>
      if pyIsSpace c then (st.1, false)
      else if st.2 then st else (st.1 + 1, true)) (0, false)).1

/-- Python `str.title()` (ASCII model): upper-case a letter after a
non-letter, lower-case a letter after a letter. -/
def pyTitleChars (cs : List Char) : List Char :=
  ((cs.foldl
    (fun (st : List Char × Bool) c =>
      if c.isAlpha then
        ((if st.2 then c.toLower else c.toUpper) :: st.1, true)
      else (c :: st.1, false)) ([], false)).1).reverse

/-- Stable insertion of `x` after every element `y` with `le y x`. -/
def insertLE {α : Type} (le : α → α → Bool) (x : α) : List α → List α
  | [] => [x]
  | y :: ys => if le y x then y :: insertLE le x ys else x :: y :: ys

/-- Stable sort by a boolean total preorder; models Python `list.sort(key=...)`
(stable sorts agree on their output, so insertion sort is a faithful model
of Timsort). -/
def pySorted {α : Type} (le : α → α → Bool) (l : List α) : List α :=
  l.foldl (fun acc x => insertLE le x acc) []

/-- Comparison by Python's sort key `(x[2], x[0], x[1])` = `(page, level, title)`
used by both `toc_detect.py` and `segment.py` on `(level, title, page)` triples. -/
def entryKeyLE (a b : Int × String × Int) : Bool :=
  if a.2.2 < b.2.2 then true
  else if b.2.2 < a.2.2 then false
  else if a.1 < b.1 then true
  else if b.1 < a.1 then false
  else !(strLt b.2.1 a.2.1)

/-! ### models.py -/

/-! Tree node for the outline (`models.Node`): title, level, optional
`start_page` / `end_page` (unset before finalization), ordered children.
`Node`/`NodeList` are a mutual pair so that the tree algorithms below are
structurally recursive. -/
mutual
inductive Node : Type where
  | mk (title : String) (level : Int) (start_page : Option Int)
       (end_page : Option Int) (children : NodeList) : Node
inductive NodeList : Type where
  | nil : NodeList
  | cons (head : Node) (tail : NodeList) : NodeList
end

def Node.title : Node → String
  | .mk t _ _ _ _ => t

def Node.level : Node → Int
  | .mk _ l _ _ _ => l

def Node.start_page : Node → Option Int
  | .mk _ _ sp _ _ => sp

def Node.end_page : Node → Option Int
  | .mk _ _ _ ep _ => ep

def Node.children : Node → NodeList
  | .mk _ _ _ _ cs => cs

/-- Convert a Lean list of nodes into a `NodeList`. -/
def ofList : List Node → NodeList
  | [] => .nil
  | c :: rest => .cons c (ofList rest)

/-- A parsed section of the report (`models.Section`).  The Python `id` is
`hashlib.sha1(fingerprint).hexdigest()[:12]`; `sha1` is an external library
call, so the model keeps the fingerprint pre-image
`" > ".join(path) + f"|{sp}|{ep}"` itself (the hash is a deterministic
function of exactly this string). -/
structure Section : Type where
  id : String
  title : String
  level : Int
  start_page : Int
  end_page : Int
  text : String
  path : List String

/-! ### section_tree.py — tree building

The Python builder mutates a stack of nodes.  The embedding represents each
open (still on-stack) node as a `BFrame`; a node is materialised
(`closeFrame`) when popped.  Children are accumulated in reverse
(`childrenRev`) and reversed on close, which reproduces Python's
`parent.children.append(node)` order.  The synthetic ROOT sits conceptually
below the stack: Python pops it only for entries with `level ≤ 0`, and in
that case still uses the root object as the parent
(`stack[-1] if stack else root`), so keeping the root permanently at the
bottom is behaviourally identical. -/

/-- An open node on the builder stack. -/
structure BFrame : Type where
  title : String
  level : Int
  start_page : Option Int
  childrenRev : List Node

/-- Materialise an open frame as a `Node` (end pages are unset during building). -/
def closeFrame (f : BFrame) : Node :=
  Node.mk f.title f.level f.start_page none (ofList f.childrenRev.reverse)

/-- Pop frames while `keep top.level` is false, folding each popped frame
into the frame below it (or into the root's child list `rootRev` when it is
the bottom frame).  `popCloseGo keep rootRev f fs` processes the stack
`f :: fs` (top first). -/
def popCloseGo (keep : Int → Bool) (rootRev : List Node) (f : BFrame) :
    List BFrame → List Node × List BFrame
  | [] =>
      if keep f.level then (rootRev, [f]) else (closeFrame f :: rootRev, [])
  | g :: gs =>
      if keep f.level then (rootRev, f :: g :: gs)
      else popCloseGo keep rootRev { g with childrenRev := closeFrame f :: g.childrenRev } gs

/-- Pop-and-close over a whole stack. -/
def popClose (keep : Int → Bool) (rootRev : List Node) :
    List BFrame → List Node × List BFrame
  | [] => (rootRev, [])
  | f :: fs => popCloseGo keep rootRev f fs

/-- One iteration of the builder loop: pop while `stack[-1].level >= level`
(Python's loop condition; `keep` is its negation), then push the new node
`Node(title=title.strip(), level=level, start_page=page)`. -/
def buildStep (st : List Node × List BFrame) (e : Int × String × Int) :
    List Node × List BFrame :=
  let popped := popClose (fun l => decide (l < e.1)) st.1 st.2
  (popped.1, ⟨pyStrip e.2.1, e.1, some e.2.2, []⟩ :: popped.2)

/-- `section_tree.build_tree_from_entries`: fold the level-stack algorithm
over the `(level, title, page)` entries and close every remaining frame. -/
def build_tree_from_entries (entries : List (Int × String × Int)) : Node :=
  let st := entries.foldl buildStep ([], [])
  Node.mk "ROOT" 0 none none (ofList ((popClose (fun _ => false) st.1 st.2).1).reverse)

/-! ### section_tree.py — finalization -/

/-! `section_tree._assign_end_pages`, split over the mutual tree type.
`parentEnd` is the enclosing node's `end_page`.  For a child with a
following sibling,
`end = max(child.start_page or 1, (next.start_page or child.start_page or 1) - 1)`;
for the last child, `end = parent.end_page if parent.end_page is not None
else doc_page_count`.  The recursion into a child uses the child's freshly
assigned end page (`assignInto`). -/
mutual
def assignChildren (docN : Int) (parentEnd : Option Int) : NodeList → NodeList
  | .nil => .nil
  | .cons c rest =>
      let newEnd : Int :=
        match rest with
        | .cons next _ => max (pyOrI c.start_page 1) (pyOrI2 next.start_page c.start_page 1 - 1)
        | .nil =>
            match parentEnd with
            | some e => e
            | none => docN
      .cons (assignInto docN newEnd c) (assignChildren docN parentEnd rest)
def assignInto (docN : Int) (newEnd : Int) : Node → Node
  | Node.mk t l sp _ cs =>
      Node.mk t l sp (some newEnd) (assignChildren docN (some newEnd) cs)
end

/-- `section_tree.finalize_tree`: set the root's range to `[1, doc_page_count]`
and assign end pages depth-first. -/
def finalize_tree (root : Node) (doc_page_count : Int) : Node :=
  match root with
  | Node.mk t l _ _ cs =>
      Node.mk t l (some 1) (some doc_page_count)
        (assignChildren doc_page_count (some doc_page_count) cs)

/-! ### section_tree.py — flattening -/

/-! The inner `walk` of `section_tree.flatten_sections`: pre-order over the
children, clamping `sp = max(1, start_page or 1)` and
`ep = max(sp, end_page or sp)`, slicing `pages_text[sp-1:ep]`, joining with
newlines and stripping.  `walkOne` handles one child: its own section record
followed by its descendants' records. -/
mutual
def walkF (pages_text : List String) (path : List String) : NodeList → List Section
  | .nil => []
  | .cons c rest => walkOne pages_text path c ++ walkF pages_text path rest
def walkOne (pages_text : List String) (path : List String) : Node → List Section
  | Node.mk t l sp0 ep0 cs =>
      let child_path := path ++ [t]
      let sp : Int := max 1 (pyOrI sp0 1)
      let ep : Int := max sp (pyOrI ep0 sp)
      let text := pyStrip (String.intercalate "\n"
        (listSlice pages_text (sp - 1).toNat ep.toNat))
      let sid := String.intercalate " > " child_path ++ "|" ++ toString sp ++ "|" ++ toString ep
      { id := sid, title := t, level := l, start_page := sp, end_page := ep,
        text := text, path := child_path } :: walkF pages_text child_path cs
end

/-- `section_tree.flatten_sections`. -/
def flatten_sections (root : Node) (pages_text : List String) : List Section :=
  walkF pages_text [] root.children

/-! ### section_tree.py — markdown rendering -/

/-- Render an optional page as Python does in the f-string
(`str(int)` or the literal `"?"`). -/
def pageStr : Option Int → String
  | some n => toString n
  | none => "?"

/-! Lines of `section_tree.tree_to_markdown`'s recursive `rec`. -/
mutual
def mdLines (indent : Nat) : NodeList → List String
  | .nil => []
  | .cons c rest => mdNode indent c ++ mdLines indent rest
def mdNode (indent : Nat) : Node → List String
  | Node.mk t _ sp ep cs =>
      (String.join (List.replicate indent "  ") ++ "- " ++ t ++ "  *(pp. " ++
          pageStr sp ++ "–" ++ pageStr ep ++ ")*") :: mdLines (indent + 1) cs
end

/-- `section_tree.tree_to_markdown`. -/
def tree_to_markdown (root : Node) : String :=
  pyStrip (String.intercalate "\n" (mdLines 0 root.children)) ++ "\n"

/-! ### toc_detect.py -/

/-- The TOC marker phrases `toc_detect.TOC_KEYWORDS`. -/
def TOC_KEYWORDS : List String := ["table of contents", "contents"]

/-- `toc_detect.find_toc_pages`: 0-based indices of the first
`min(len(pages_text), max_pages)` pages whose lowercased text contains a
marker phrase. -/
def find_toc_pages (pages_text : List String) (max_pages : Nat) : List Nat :=
  (List.range (min pages_text.length max_pages)).filter
    (fun i => TOC_KEYWORDS.any
      (fun k => containsSub k.toList ((pages_text.getD i "").toList.map pyLowerChar)))

/-- Model of `re.search(r"\b(\d{1,4})\s*$", s)`: the match, if any, is the
maximal trailing digit run (after optional trailing whitespace) of length
1–4 whose preceding character (if any) is a non-word character (`\b`); a
longer run can never match because no position inside a digit run is a word
boundary.  Returns `(m.start(), int(m.group(1)))`. -/
def findTrailingNum (s : String) : Option (Nat × Nat) :=
  let cs := s.toList
  let rev := cs.reverse
  let ws := rev.takeWhile pyIsSpace
  let r1 := rev.drop ws.length
  let ds := r1.takeWhile Char.isDigit
  if ds.length = 0 || 4 < ds.length then none
  else
    match r1.drop ds.length with
    | [] => some (cs.length - ws.length - ds.length, digitsVal ds.reverse)
    | c :: _ =>
        if pyIsWord c then none
        else some (cs.length - ws.length - ds.length, digitsVal ds.reverse)

/-- Model of `re.search(r"\s{3,}\d{1,4}\s*$", s)`: a trailing digit run of
length 1–4 (after optional trailing whitespace) immediately preceded by at
least 3 whitespace characters. -/
def wideGapNum (s : String) : Bool :=
  let rev := s.toList.reverse
  let ws := rev.takeWhile pyIsSpace
  let r1 := rev.drop ws.length
  let ds := r1.takeWhile Char.isDigit
  if ds.length = 0 || 4 < ds.length then false
  else 3 ≤ ((r1.drop ds.length).takeWhile pyIsSpace).length

/-- Greedy parse of `(\.\d+){0,maxG}` continuations after a leading digit
run: `acc` accumulates the matched number text.  Greediness is faithful: a
shorter parse can only stop before `.`+digits, where the regex tails
(`[\.\)]?\s+`, `\s+`) fail anyway. -/
def parseDotGroups : Nat → List Char → List Char → List Char × List Char
  | 0, acc, cs => (acc, cs)
  | fuel + 1, acc, cs =>
      match cs with
      | '.' :: rest =>
          let ds := rest.takeWhile Char.isDigit
          if ds.isEmpty then (acc, cs)
          else parseDotGroups fuel (acc ++ '.' :: ds) (rest.drop ds.length)
      | _ => (acc, cs)

/-- Parse `\d+(\.\d+){0,maxG}` at the start of `cs`; returns the number text
and the remainder. -/
def parseNumPre (maxG : Nat) (cs : List Char) : Option (List Char × List Char) :=
  let ds := cs.takeWhile Char.isDigit
  if ds.isEmpty then none
  else some (parseDotGroups maxG ds (cs.drop ds.length))

/-- Consume `\s+` (at least one whitespace char, maximally); `none` when no
whitespace is present. -/
def pyTailWS (cs : List Char) : Option (List Char) :=
  let ws := cs.takeWhile pyIsSpace
  if ws.isEmpty then none else some (cs.drop ws.length)

/-- Consume `[\.\)]?\s+`: either whitespace directly, or one `.`/`)` then
whitespace (the two branches are on disjoint first characters, so regex
backtracking order is irrelevant). -/
def afterNumGroup (cs : List Char) : Option (List Char) :=
  match pyTailWS cs with
  | some rest => some rest
  | none =>
      match cs with
      | c :: rest2 => if c = '.' || c = ')' then pyTailWS rest2 else none
      | [] => none

/-- Model of `re.match(r"^(\d+(\.\d+){0,4}|[A-Z])[\.\)]?\s+\S+", s)`
(truth value only): a number of up to 5 dotted components, or one capital
letter, then optional `.`/`)`, whitespace, and at least one non-space char. -/
def leadingNumPattern (cs : List Char) : Bool :=
  let rest? :=
    match parseNumPre 4 cs with
    | some (_, rest) => some rest
    | none =>
        match cs with
        | c :: rest => if c.isUpper then some rest else none
        | [] => none
  match rest? with
  | none => false
  | some rest =>
      match afterNumGroup rest with
      | some r => !r.isEmpty
      | none => false

/-- `toc_detect._looks_like_toc_line`: at least 6 chars, a trailing 1–4
digit page number, at least one letter, and (dot leaders, or a wide gap
before the number, or a leading numbering pattern). -/
def looks_like_toc_line (line : String) : Bool :=
  let s := pyStrip line
  if s.toList.length < 6 then false
  else if (findTrailingNum s).isNone then false
  else if !(s.toList.any Char.isAlpha) then false
  else if containsSub "...".toList s.toList then true
  else if wideGapNum s then true
  else leadingNumPattern s.toList

/-- Model of `re.match(r"^(\d+(?:\.\d+){0,6}|[A-Z])[\.\)]?\s+(.*)$", t)`:
on success returns the number text and the rest (Python's `(.*)$` after the
maximal `\s+` run; it may be empty). -/
def splitLeadingNum (cs : List Char) : Option (List Char × List Char) :=
  let head? :=
    match parseNumPre 6 cs with
    | some (num, rest) => some (num, rest)
    | none =>
        match cs with
        | c :: rest => if c.isUpper then some ([c], rest) else none
        | [] => none
  match head? with
  | none => none
  | some (num, rest) =>
      match afterNumGroup rest with
      | some r => some (num, r)
      | none => none

/-- Entry extraction for one TOC line (body of the `for ln in lines` loop in
`toc_detect.parse_toc_entries_from_pages`): classification, trailing page
number, `rstrip(". ").strip()`, removal of a trailing `\.{2,}` run, and
leading-numbering split for the level. -/
def tocLineEntry (ln : String) : Option (Int × String × Int) :=
  if !looks_like_toc_line ln then none
  else
    match findTrailingNum ln with
    | none => none
    | some (titleLen, page) =>
        let tp1 := pyStripChars (rstripSet (fun c => c = '.' || c = ' ')
          (ln.toList.take titleLen))
        let tp2 :=
          let r := tp1.reverse
          let dots := r.takeWhile (fun c => c = '.')
          if 2 ≤ dots.length then pyStripChars ((r.drop dots.length).reverse)
          else pyStripChars tp1
        match splitLeadingNum tp2 with
        | some (num, restTitle) =>
            let title := pyStrip (String.mk restTitle)
            let level : Int :=
              match num with
              | d :: _ => if d.isDigit then (num.countP (fun c => c = '.') : Int) + 1 else 1
              | [] => 1
            some (level, title, (page : Int))
        | none => some (1, String.mk tp2, (page : Int))

/-- Deduplicating accumulator shared by both detectors: append the entry
unless its `(level, title.lower(), page)` key was seen. -/
def addEntry (st : List (Int × String × Int) × List (Int × String × Int))
    (lv : Int) (title : String) (page : Int) :
    List (Int × String × Int) × List (Int × String × Int) :=
  let key := (lv, pyLower title, page)
  if st.2.contains key then st else (st.1 ++ [(lv, title, page)], key :: st.2)

/-- `toc_detect.parse_toc_entries_from_pages`: scan the stripped lines of
every candidate page, collect de-duplicated entries, sort by
`(page, level, title)`. -/
def parse_toc_entries_from_pages (pages_text : List String) (toc_pages : List Nat) :
    List (Int × String × Int) :=
  let lines := toc_pages.flatMap
    (fun p => (pySplitlines (pages_text.getD p "")).map pyStrip)
  let st := lines.foldl
    (fun st ln =>
      match tocLineEntry ln with
      | none => st
      | some (lv, title, page) => addEntry st lv title page) ([], [])
  pySorted entryKeyLE st.1

/-! ### segment.py -/

/-- Character class `[A-Za-z0-9&,\-:’'()/ ]` of the heading grammars. -/
def hClassChar (c : Char) : Bool :=
  c.isAlpha || c.isDigit || c = '&' || c = ',' || c = '-' || c = ':' ||
    c = '’' || c = '\'' || c = '(' || c = ')' || c = '/' || c = ' '

/-- Grammar 1 of `segment.detect_headings`:
`re.match(r"^(\d+(?:\.\d+){0,5})\s+([A-Z][A-Za-z0-9&,\-:’'()/ ]+)$", s)`;
level is the dot count plus one, title is `group(2).strip()`. -/
def g1Numbered (cs : List Char) : Option (Int × String) :=
  match parseNumPre 5 cs with
  | none => none
  | some (num, rest) =>
      match pyTailWS rest with
      | none => none
      | some r =>
          match r with
          | c :: rest2 =>
              if c.isUpper && !rest2.isEmpty && rest2.all hClassChar then
                some ((num.countP (fun x => x = '.') : Int) + 1,
                  pyStrip (String.mk (c :: rest2)))
              else none
          | [] => none

/-- Python `str.isupper()` (ASCII model): at least one cased character and
no lower-case character. -/
def isupperPy (cs : List Char) : Bool :=
  cs.any Char.isAlpha && cs.all (fun c => !c.isAlpha || c.isUpper)

/-- Caption test `re.match(r"^(figure|table)\s+\d+", s.lower())`. -/
def captionLike (cs : List Char) : Bool :=
  let low := cs.map pyLowerChar
  let capAt := fun (kw : List Char) =>
    kw.isPrefixOf low &&
      (match pyTailWS (low.drop kw.length) with
       | some (d :: _) => d.isDigit
       | _ => false)
  capAt "figure".toList || capAt "table".toList

/-- Grammar 3 shape test `re.match(r"^[A-Z][A-Za-z0-9&,\-:’'()/ ]+$", s)`. -/
def properCaseShape (cs : List Char) : Bool :=
  match cs with
  | c :: rest => c.isUpper && !rest.isEmpty && rest.all hClassChar
  | [] => false

/-- Per-line body of `segment.detect_headings`: normalise
(`re.sub(r"\s+", " ", ln).strip()`), length gate 6–120, then apply the three
mutually exclusive grammars in order. -/
def headLineEntry (ln : String) : Option (Int × String) :=
  let s := pyStripChars (collapseWS (pyStrip ln).toList)
  if s.length < 6 || 120 < s.length then none
  else
    match g1Numbered s with
    | some e => some e
    | none =>
        if isupperPy s && 6 ≤ s.length && s.length ≤ 60 && s.any Char.isUpper then
          some (1, String.mk (pyTitleChars s))
        else if s.getLast? == some '.' then none
        else if 2 ≤ countWords s && properCaseShape s then
          if 2 < s.countP (fun c => c = ',' || c = ';' || c = ':') then none
          else if captionLike s then none
          else some (1, String.mk s)
        else none

/-- `segment.detect_headings`: scan every stripped line of every page,
collect de-duplicated `(level, title, page_1_indexed)` entries, sort by
`(page, level, title)`. -/
def detect_headings (pages_text : List String) : List (Int × String × Int) :=
  let pls := pages_text.enum.flatMap
    (fun pe => (pySplitlines pe.2).map (fun ln => ((pe.1 + 1 : Int), pyStrip ln)))
  let st := pls.foldl
    (fun st pl =>
      match headLineEntry pl.2 with
      | none => st
      | some (lv, title) => addEntry st lv title pl.1) ([], [])
  pySorted entryKeyLE st.1

/-! ### api.py -/

/-- The result record of `api.parse_pdf` restricted to the core pipeline
fields (the `pdf_path` passthrough and the lazily filled asset dataframes
are I/O concerns outside the model). -/
structure ParseResultM : Type where
  strategy_used : String
  page_count : Nat
  tree : Node
  sections : List Section
  tree_md : String

/-- The shared successful tail of `api.parse_pdf`: build, finalize, flatten,
render. -/
def pipelineResult (entries : List (Int × String × Int)) (used : String)
    (pages_text : List String) : ParseResultM :=
  let root := finalize_tree (build_tree_from_entries entries) (pages_text.length : Int)
  { strategy_used := used, page_count := pages_text.length, tree := root,
    sections := flatten_sections root pages_text, tree_md := tree_to_markdown root }

/-- The `ValueError` message raised by `api.parse_pdf` when no strategy
yields entries. -/
def noStructureMsg : String :=
  "No outline/TOC/headings detected. Try a different PDF or extend heuristics."

/-- `api.parse_pdf` with the external PDF collaborators factored out:
`pages_text` stands for `extract_pages_text(pdf_path)` and `outline` for
`extract_outline(pdf_path)` (which returns `None` instead of an empty
list).  The strategy cascade, the truthiness tests and the final
`if not entries` check follow the source line by line. -/
def parse_pdf (pages_text : List String) (outline : Option (List (Int × String × Int)))
    (strategy : String) (max_toc_pages : Nat) :
    Except String ParseResultM :=
  let st0 : Option (List (Int × String × Int)) × String := (none, "none")
  let st1 :=
    if strategy = "auto" || strategy = "outline" then
      match outline with
      | some toc => if toc.isEmpty then st0 else (some toc, "outline")
      | none => st0
    else st0
  let st2 :=
    if st1.1 = none ∧ (strategy = "auto" || strategy = "toc") then
      let toc_pages := find_toc_pages pages_text max_toc_pages
      if toc_pages.isEmpty then st1
      else
        let toc_entries := parse_toc_entries_from_pages pages_text toc_pages
        if toc_entries.isEmpty then st1 else (some toc_entries, "toc")
    else st1
  let st3 :=
    if st2.1 = none ∧ (strategy = "auto" || strategy = "headings") then
      let headings := detect_headings pages_text
      if headings.isEmpty then st2 else (some headings, "headings")
    else st2
  match st3.1 with
  | none => Except.error noStructureMsg
  | some entries =>
      if entries.isEmpty then Except.error noStructureMsg
      else Except.ok (pipelineResult entries st3.2 pages_text)

/-- Boolean success test on `Except` (whether `parse_pdf` did not raise). -/
def okB {ε α : Type} : Except ε α → Bool
  | .ok _ => true
  | .error _ => false

end SustainSpec

namespace SustainSpec

/-! ### Proof infrastructure: induction over the mutual tree type -/

mutual
/-- Helper for `forestInd`: the cons case with the head destructured. -/
theorem consInd {P : NodeList → Prop} (h0 : P NodeList.nil)
    (h1 : ∀ t l sp ep cs rest, P cs → P rest →
      P (NodeList.cons (Node.mk t l sp ep cs) rest)) :
    ∀ (c : Node) (rest : NodeList), P rest → P (NodeList.cons c rest)
  | Node.mk t l sp ep cs, rest, hr => h1 t l sp ep cs rest (forestInd h0 h1 cs) hr

/-- Structural induction over `NodeList` descending both into children and
into the tail. -/
theorem forestInd {P : NodeList → Prop} (h0 : P NodeList.nil)
    (h1 : ∀ t l sp ep cs rest, P cs → P rest →
      P (NodeList.cons (Node.mk t l sp ep cs) rest)) :
    ∀ F, P F
  | .nil => h0
  | .cons c rest => consInd h0 h1 c rest (forestInd h0 h1 rest)
end

/-! ### Pre-order triples of a tree -/

mutual
/-- Pre-order `(level, title, start_page)` triples of one node's subtree. -/
def nodeTriples : Node → List (Int × String × Option Int)
  | .mk t l sp _ cs => (l, t, sp) :: forestTriples cs

/-- Pre-order triples of a forest. -/
def forestTriples : NodeList → List (Int × String × Option Int)
  | .nil => []
  | .cons c rest => nodeTriples c ++ forestTriples rest
end

/-- Pre-order triples of a plain list of nodes. -/
def listTriples : List Node → List (Int × String × Option Int)
  | [] => []
  | c :: rest => nodeTriples c ++ listTriples rest

theorem listTriples_append (a b : List Node) :
    listTriples (a ++ b) = listTriples a ++ listTriples b := by
  induction a with
  | nil => simp [listTriples]
  | cons c rest ih => simp [listTriples, ih]

theorem forestTriples_ofList (l : List Node) :
    forestTriples (ofList l) = listTriples l := by
  induction l with
  | nil => simp [ofList, forestTriples, listTriples]
  | cons c rest ih => simp [ofList, forestTriples, listTriples, ih]

/-- Document-order triples held by one open frame: its own entry followed by
its closed children. -/
def frameTriples (f : BFrame) : List (Int × String × Option Int) :=
  (f.level, f.title, f.start_page) :: listTriples f.childrenRev.reverse

/-- Document-order triples of a builder stack (bottom of the stack first). -/
def stackTriples : List BFrame → List (Int × String × Option Int)
  | [] => []
  | f :: fs => stackTriples fs ++ frameTriples f

/-- Document-order triples of a whole builder state. -/
def stateTriples (st : List Node × List BFrame) : List (Int × String × Option Int) :=
  listTriples st.1.reverse ++ stackTriples st.2

theorem nodeTriples_closeFrame (f : BFrame) :
    nodeTriples (closeFrame f) = frameTriples f := by
  simp [closeFrame, nodeTriples, frameTriples, forestTriples_ofList]

theorem popCloseGo_triples (keep : Int → Bool) :
    ∀ (fs : List BFrame) (f : BFrame) (rr : List Node),
      stateTriples (popCloseGo keep rr f fs) =
        listTriples rr.reverse ++ stackTriples fs ++ frameTriples f := by
  intro fs
  induction fs with
  | nil =>
      intro f rr
      by_cases h : keep f.level
      · simp [popCloseGo, h, stateTriples, stackTriples]
      · simp [popCloseGo, h, stateTriples, stackTriples, listTriples_append,
          listTriples, nodeTriples_closeFrame]
  | cons g gs ih =>
      intro f rr
      by_cases h : keep f.level
      · simp [popCloseGo, h, stateTriples, stackTriples]
      · have hg : frameTriples { g with childrenRev := closeFrame f :: g.childrenRev } =
            frameTriples g ++ frameTriples f := by
          simp [frameTriples, listTriples_append, listTriples, nodeTriples_closeFrame]
        simp [popCloseGo, h, ih, hg, stackTriples]

theorem popClose_triples (keep : Int → Bool) (rr : List Node) (stk : List BFrame) :
    stateTriples (popClose keep rr stk) = stateTriples (rr, stk) := by
  cases stk with
  | nil => simp [popClose]
  | cons f fs =>
      simp only [popClose]
      rw [popCloseGo_triples]
      simp [stateTriples, stackTriples, List.append_assoc]

theorem popCloseGo_false_stack :
    ∀ (fs : List BFrame) (f : BFrame) (rr : List Node),
      (popCloseGo (fun _ => false) rr f fs).2 = [] := by
  intro fs
  induction fs with
  | nil => intro f rr; simp [popCloseGo]
  | cons g gs ih => intro f rr; simp [popCloseGo, ih]

theorem buildStep_triples (st : List Node × List BFrame) (e : Int × String × Int) :
    stateTriples (buildStep st e) =
      stateTriples st ++ [(e.1, pyStrip e.2.1, some e.2.2)] := by
  have h := popClose_triples (fun l => decide (l < e.1)) st.1 st.2
  simp only [buildStep, stateTriples, stackTriples] at *
  simp [← h, frameTriples, listTriples]

theorem foldl_buildStep_triples :
    ∀ (entries : List (Int × String × Int)) (st : List Node × List BFrame),
      stateTriples (List.foldl buildStep st entries) =
        stateTriples st ++ entries.map (fun e => (e.1, pyStrip e.2.1, some e.2.2)) := by
  intro entries
  induction entries with
  | nil => intro st; simp
  | cons e rest ih => intro st; simp [ih, buildStep_triples]

/-- The pre-order of the built tree's children is exactly the entry list
(titles stripped, start pages set, levels copied). -/
theorem build_preorder (entries : List (Int × String × Int)) :
    forestTriples (build_tree_from_entries entries).children =
      entries.map (fun e => (e.1, pyStrip e.2.1, some e.2.2)) := by
  have hfold := foldl_buildStep_triples entries ([], [])
  set st := List.foldl buildStep ([], []) entries with hst
  have hpc := popClose_triples (fun _ => false) st.1 st.2
  have hempty :
      (popClose (fun _ => false) st.1 st.2).2 = [] := by
    cases hs : st.2 with
    | nil => simp [popClose]
    | cons f fs => simp [popClose, popCloseGo_false_stack]
  have hstate :
      stateTriples (popClose (fun _ => false) st.1 st.2) =
        listTriples ((popClose (fun _ => false) st.1 st.2).1).reverse := by
    simp [stateTriples, hempty, stackTriples]
  simp [build_tree_from_entries, Node.children, forestTriples_ofList]
  rw [← hst]
  have : listTriples ((popClose (fun _ => false) st.1 st.2).1).reverse =
      stateTriples (st.1, st.2) := by rw [← hstate, hpc]
  rw [this]
  simpa [stateTriples, stackTriples, listTriples] using hfold

end SustainSpec

namespace SustainSpec

/-! ### Level strictness of built trees -/

mutual
/-- Every node of the subtree has a level strictly above its parent's;
`pl` is the parent level bound for the root of the subtree. -/
def nodeLevels (pl : Int) : Node → Prop
  | Node.mk _ l _ _ cs => pl < l ∧ forestLevels l cs

/-- `nodeLevels` over a forest of siblings. -/
def forestLevels (pl : Int) : NodeList → Prop
  | .nil => True
  | .cons c rest => nodeLevels pl c ∧ forestLevels pl rest
end

/-- `nodeLevels` over a plain list of nodes. -/
def listLevels (pl : Int) : List Node → Prop
  | [] => True
  | c :: rest => nodeLevels pl c ∧ listLevels pl rest

theorem listLevels_append (pl : Int) (a b : List Node) :
    listLevels pl (a ++ b) ↔ listLevels pl a ∧ listLevels pl b := by
  induction a with
  | nil => simp [listLevels]
  | cons c rest ih => simp [listLevels, ih, and_assoc]

theorem listLevels_reverse (pl : Int) (a : List Node) :
    listLevels pl a.reverse ↔ listLevels pl a := by
  induction a with
  | nil => simp
  | cons c rest ih =>
      simp [listLevels, listLevels_append, ih, and_comm]

theorem forestLevels_ofList (pl : Int) (l : List Node) :
    forestLevels pl (ofList l) ↔ listLevels pl l := by
  induction l with
  | nil => simp [ofList, forestLevels, listLevels]
  | cons c rest ih => simp [ofList, forestLevels, listLevels, ih]

/-- Constraint relating a frame to the frame directly above it. -/
def headLevelLt (l : Int) : List BFrame → Prop
  | [] => True
  | g :: _ => g.level < l

/-- Invariant of the builder stack (top first): every frame's level is at
least 1, its accumulated children sit strictly above its level, and levels
strictly increase towards the top. -/
def stackOK : List BFrame → Prop
  | [] => True
  | f :: fs => 1 ≤ f.level ∧ listLevels f.level f.childrenRev ∧
      headLevelLt f.level fs ∧ stackOK fs

/-- Invariant of a builder state. -/
def buildInv (st : List Node × List BFrame) : Prop :=
  listLevels 0 st.1 ∧ stackOK st.2

theorem nodeLevels_closeFrame (pl : Int) (f : BFrame) (hpl : pl < f.level)
    (hch : listLevels f.level f.childrenRev) : nodeLevels pl (closeFrame f) := by
  refine ⟨hpl, ?_⟩
  rw [forestLevels_ofList, listLevels_reverse]
  exact hch

theorem popCloseGo_inv (keep : Int → Bool) :
    ∀ (fs : List BFrame) (f : BFrame) (rr : List Node),
      listLevels 0 rr → stackOK (f :: fs) →
      buildInv (popCloseGo keep rr f fs) ∧
        (∀ g, ((popCloseGo keep rr f fs).2).head? = some g → keep g.level = true) := by
  intro fs
  induction fs with
  | nil =>
      intro f rr hrr hstk
      obtain ⟨hf1, hfc, -, -⟩ := hstk
      by_cases h : keep f.level
      · simp only [popCloseGo, h, if_true]
        refine ⟨⟨hrr, hf1, hfc, trivial, trivial⟩, ?_⟩
        intro g hg
        simp only [List.head?_cons, Option.some.injEq] at hg
        simpa [← hg] using h
      · simp only [popCloseGo, h, if_false]
        refine ⟨⟨?_, trivial⟩, ?_⟩
        · exact ⟨nodeLevels_closeFrame 0 f (lt_of_lt_of_le zero_lt_one hf1) hfc, hrr⟩
        · intro g hg
          simp at hg
  | cons g gs ih =>
      intro f rr hrr hstk
      obtain ⟨hf1, hfc, hlt, hg1, hgc, hglt, hgs⟩ := hstk
      by_cases h : keep f.level
      · simp only [popCloseGo, h, if_true]
        refine ⟨⟨hrr, hf1, hfc, hlt, hg1, hgc, hglt, hgs⟩, ?_⟩
        intro x hx
        simp only [List.head?_cons, Option.some.injEq] at hx
        simpa [← hx] using h
      · have hlt' : g.level < f.level := hlt
        have hstk' : stackOK ({ g with childrenRev := closeFrame f :: g.childrenRev } :: gs) := by
          refine ⟨hg1, ?_, hglt, hgs⟩
          exact ⟨nodeLevels_closeFrame g.level f hlt' hfc, hgc⟩
        have := ih { g with childrenRev := closeFrame f :: g.childrenRev } rr hrr hstk'
        simpa [popCloseGo, h] using this

theorem popClose_inv (keep : Int → Bool) (rr : List Node) (stk : List BFrame)
    (hrr : listLevels 0 rr) (hstk : stackOK stk) :
    buildInv (popClose keep rr stk) ∧
      (∀ g, ((popClose keep rr stk).2).head? = some g → keep g.level = true) := by
  cases stk with
  | nil =>
      refine ⟨⟨hrr, trivial⟩, ?_⟩
      intro g hg
      simp [popClose] at hg
  | cons f fs => exact popCloseGo_inv keep fs f rr hrr hstk

theorem buildStep_inv (st : List Node × List BFrame) (e : Int × String × Int)
    (hinv : buildInv st) (he : 1 ≤ e.1) : buildInv (buildStep st e) := by
  obtain ⟨hrr, hstk⟩ := hinv
  obtain ⟨⟨hrr', hstk'⟩, hhead⟩ := popClose_inv (fun l => decide (l < e.1)) st.1 st.2 hrr hstk
  refine ⟨hrr', he, trivial, ?_, hstk'⟩
  cases hpop : ((popClose (fun l => decide (l < e.1)) st.1 st.2).2) with
  | nil => simp [headLevelLt]
  | cons g gs =>
      have := hhead g (by simp [hpop])
      simp only [decide_eq_true_eq] at this
      simpa [headLevelLt] using this

theorem foldl_buildStep_inv :
    ∀ (entries : List (Int × String × Int)) (st : List Node × List BFrame),
      buildInv st → (∀ e ∈ entries, 1 ≤ e.1) →
      buildInv (List.foldl buildStep st entries) := by
  intro entries
  induction entries with
  | nil => intro st h _; simpa using h
  | cons e rest ih =>
      intro st h hall
      have he : 1 ≤ e.1 := hall e (by simp)
      have := buildStep_inv st e h he
      exact ih (buildStep st e) this (fun x hx => hall x (by simp [hx]))

/-- Every node of the tree built from entries of level at least 1 has a
level strictly greater than its parent's (the synthetic root having level 0). -/
theorem build_levels (entries : List (Int × String × Int))
    (h : ∀ e ∈ entries, 1 ≤ e.1) :
    forestLevels 0 (build_tree_from_entries entries).children := by
  have hinv : buildInv (List.foldl buildStep ([], []) entries) :=
    foldl_buildStep_inv entries ([], []) ⟨trivial, trivial⟩ h
  obtain ⟨hrr, hstk⟩ := hinv
  obtain ⟨⟨hrr', -⟩, -⟩ :=
    popClose_inv (fun _ => false)
      (List.foldl buildStep ([], []) entries).1
      (List.foldl buildStep ([], []) entries).2 hrr hstk
  simp only [build_tree_from_entries, Node.children]
  rw [forestLevels_ofList, listLevels_reverse]
  exact hrr'

end SustainSpec

namespace SustainSpec

/-! ### Start-page bookkeeping for the finalization proof -/

mutual
/-- Maximum of `acc` and every `start_page or 0` in the subtree. -/
def sMaxN (acc : Int) : Node → Int
  | Node.mk _ _ sp _ cs => sMaxF (max acc (sp.getD 0)) cs

/-- Maximum of `acc` and every `start_page or 0` in the forest. -/
def sMaxF (acc : Int) : NodeList → Int
  | .nil => acc
  | .cons c rest => sMaxF (sMaxN acc c) rest
end

mutual
/-- Start pages of the subtree are present and strictly increase in
pre-order, every one above `lo`. -/
def nodeChain (lo : Int) : Node → Prop
  | Node.mk _ _ sp _ cs => ∃ p, sp = some p ∧ lo < p ∧ forestChain p cs

/-- `nodeChain` along a forest: each sibling's subtree starts strictly after
every start page of the previous sibling's subtree. -/
def forestChain (lo : Int) : NodeList → Prop
  | .nil => True
  | .cons c rest => nodeChain lo c ∧ forestChain (sMaxN lo c) rest
end

/-- The `start_page or 0` values of a forest in pre-order. -/
def pagesD (F : NodeList) : List Int :=
  (forestTriples F).map (fun x => x.2.2.getD 0)

theorem foldl_max_le_self (l : List Int) : ∀ a : Int, a ≤ l.foldl max a := by
  induction l with
  | nil => intro a; simp
  | cons x xs ih =>
      intro a
      calc a ≤ max a x := le_max_left a x
        _ ≤ xs.foldl max (max a x) := ih (max a x)
        _ = (x :: xs).foldl max a := by simp

theorem foldl_max_le (l : List Int) :
    ∀ a b : Int, a ≤ b → (∀ y ∈ l, y ≤ b) → l.foldl max a ≤ b := by
  induction l with
  | nil => intro a b hab _; simpa using hab
  | cons x xs ih =>
      intro a b hab hall
      simp only [List.foldl_cons]
      exact ih (max a x) b (max_le hab (hall x (by simp)))
        (fun y hy => hall y (by simp [hy]))

theorem foldl_max_lt (l : List Int) :
    ∀ a b : Int, a < b → (∀ y ∈ l, y < b) → l.foldl max a < b := by
  induction l with
  | nil => intro a b hab _; simpa using hab
  | cons x xs ih =>
      intro a b hab hall
      simp only [List.foldl_cons]
      exact ih (max a x) b (max_lt hab (hall x (by simp)))
        (fun y hy => hall y (by simp [hy]))

theorem sMaxF_foldl : ∀ (F : NodeList) (acc : Int),
    sMaxF acc F = (pagesD F).foldl max acc := by
  intro F
  induction F using forestInd with
  | h0 => intro acc; simp [sMaxF, pagesD, forestTriples]
  | h1 t l sp ep cs rest ihc ihr =>
      intro acc
      simp only [sMaxF, sMaxN]
      rw [ihr, ihc]
      simp [pagesD, forestTriples, nodeTriples, List.foldl_append]

theorem sMaxF_le_self (F : NodeList) (acc : Int) : acc ≤ sMaxF acc F := by
  rw [sMaxF_foldl]
  exact foldl_max_le_self _ acc

theorem sMaxN_le_self (c : Node) (acc : Int) : acc ≤ sMaxN acc c := by
  cases c with
  | mk t l sp ep cs =>
      calc acc ≤ max acc (sp.getD 0) := le_max_left _ _
        _ ≤ sMaxF (max acc (sp.getD 0)) cs := sMaxF_le_self cs _
        _ = sMaxN acc (Node.mk t l sp ep cs) := rfl

theorem sMaxF_mono : ∀ (F : NodeList) (a b : Int), a ≤ b → sMaxF a F ≤ sMaxF b F := by
  intro F
  induction F using forestInd with
  | h0 => intro a b h; simpa [sMaxF] using h
  | h1 t l sp ep cs rest ihc ihr =>
      intro a b h
      simp only [sMaxF, sMaxN]
      exact ihr _ _ (ihc _ _ (max_le_max h le_rfl))

theorem map_some_append_split :
    ∀ (A B : List (Option Int)) (ps : List Int), ps.map some = A ++ B →
      ∃ ps1 ps2, ps = ps1 ++ ps2 ∧ A = ps1.map some ∧ B = ps2.map some := by
  intro A
  induction A with
  | nil =>
      intro B ps h
      exact ⟨[], ps, by simp, by simp, by simpa using h.symm⟩
  | cons a A' ih =>
      intro B ps h
      cases ps with
      | nil => simp at h
      | cons p ps' =>
          simp only [List.map_cons, List.cons_append, List.cons.injEq] at h
          obtain ⟨ha, hrest⟩ := h
          obtain ⟨ps1, ps2, h1, h2, h3⟩ := ih B ps' hrest
          exact ⟨p :: ps1, ps2, by simp [h1], by simp [← ha, h2], h3⟩

/-- A forest whose pre-order start pages exist, strictly increase, and all
exceed `lo`, satisfies `forestChain lo`. -/
theorem chain_of_pairwise :
    ∀ (F : NodeList) (lo : Int) (ps : List Int),
      (forestTriples F).map (fun x => x.2.2) = ps.map some →
      List.Pairwise (fun a b : Int => a < b) ps →
      (∀ p ∈ ps, lo < p) →
      forestChain lo F := by
  intro F
  induction F using forestInd with
  | h0 => intro lo ps _ _ _; trivial
  | h1 t l sp ep cs rest ihc ihr =>
      intro lo ps hpages hpw hlo
      simp only [forestTriples, nodeTriples, List.map_append, List.map_cons,
        List.cons_append] at hpages
      cases ps with
      | nil => simp at hpages
      | cons p ps' =>
          simp only [List.map_cons, List.cons.injEq] at hpages
          obtain ⟨hsp, hsplit⟩ := hpages
          obtain ⟨ps1, ps2, hps', hcs, hrest⟩ :=
            map_some_append_split _ _ ps' hsplit.symm
          subst hps'
          have hpw' := hpw
          rw [List.pairwise_cons] at hpw'
          obtain ⟨hpall, hpw2⟩ := hpw'
          rw [List.pairwise_append] at hpw2
          obtain ⟨hpw_1, hpw_2, hcross⟩ := hpw2
          have hlop : lo < p := hlo p (by simp)
          refine ⟨⟨p, hsp, hlop, ?_⟩, ?_⟩
          · exact ihc p ps1 hcs hpw_1
              (fun x hx => hpall x (by simp [hx]))
          · have hsm : sMaxN lo (Node.mk t l sp ep cs) =
                (pagesD cs).foldl max (max lo p) := by
              simp [sMaxN, hsp, sMaxF_foldl]
            have hpagesD : pagesD cs = ps1 := by
              have h2 : pagesD cs =
                  ((forestTriples cs).map (fun x => x.2.2)).map (fun o => o.getD 0) := by
                simp [pagesD, List.map_map]
              rw [h2, hcs]
              simp [Function.comp_def]
            refine ihr (sMaxN lo (Node.mk t l sp ep cs)) ps2 hrest hpw_2 ?_
            intro x hx
            rw [hsm, hpagesD]
            refine foldl_max_lt ps1 _ x (max_lt (hlo x (by simp [hx])) (hpall x (by simp [hx]))) ?_
            intro y hy
            exact hcross y hy x hx

/-! ### The finalized range invariant -/

mutual
/-- The finalized-range property of one node within a parent whose range is
`[lo, E]`: `start_page ≤ end_page`, the node's range lies inside the
parent's, and its own children satisfy the same property inside it. -/
def finNode (lo E : Int) : Node → Prop
  | Node.mk _ _ sp ep cs =>
      ∃ s e, sp = some s ∧ ep = some e ∧ lo ≤ s ∧ s ≤ e ∧ e ≤ E ∧ finForest s e cs

/-- The finalized-range property of a children list of a parent with range
`[lo, E]`: every child is in range, consecutive children are contiguous
(`child.end_page = next.start_page - 1`), and the last child ends exactly
at `E`. -/
def finForest (lo E : Int) : NodeList → Prop
  | .nil => True
  | .cons c rest =>
      finNode lo E c ∧
      (match rest with
       | .nil => c.end_page = some E
       | .cons next _ => ∃ e, c.end_page = some e ∧ next.start_page = some (e + 1)) ∧
      finForest lo E rest
end

theorem finNode_mono : ∀ (c : Node) (lo lo' E : Int), lo' ≤ lo →
    finNode lo E c → finNode lo' E c := by
  intro c lo lo' E hle h
  cases c with
  | mk t l sp ep cs =>
      obtain ⟨s, e, h1, h2, h3, h4, h5, h6⟩ := h
      exact ⟨s, e, h1, h2, le_trans hle h3, h4, h5, h6⟩

theorem finForest_mono : ∀ (F : NodeList) (lo lo' E : Int), lo' ≤ lo →
    finForest lo E F → finForest lo' E F := by
  intro F
  induction F using forestInd with
  | h0 => intro lo lo' E _ _; trivial
  | h1 t l sp ep cs rest ihc ihr =>
      intro lo lo' E hle h
      obtain ⟨h1, h2, h3⟩ := h
      exact ⟨finNode_mono _ lo lo' E hle h1, h2, ihr lo lo' E hle h3⟩

theorem assignInto_start (docN ne : Int) (c : Node) :
    (assignInto docN ne c).start_page = c.start_page := by
  cases c with
  | mk t l sp ep cs => rfl

/-- Main finalization lemma: a forest whose start pages chain strictly above
`lo ≥ 0` and never exceed `E` is finalized by `assignChildren` with parent
end `E` into a forest satisfying the full range invariant. -/
theorem fin_of_chain :
    ∀ (cs : NodeList) (lo E docN : Int),
      forestChain lo cs → 0 ≤ lo → sMaxF lo cs ≤ E →
      finForest (lo + 1) E (assignChildren docN (some E) cs) := by
  intro cs
  induction cs using forestInd with
  | h0 => intro lo E docN _ _ _; trivial
  | h1 t l sp ep ccs rest ihc ihr =>
      intro lo E docN hchain hlo hmax
      obtain ⟨hnode, hrestchain⟩ := hchain
      obtain ⟨p, hsp, hlop, hccs⟩ := hnode
      subst hsp
      have hp1 : 1 ≤ p := by omega
      have hpA : p ≤ sMaxN lo (Node.mk t l (some p) ep ccs) := by
        calc p ≤ max lo p := le_max_right lo p
          _ = max lo ((some p : Option Int).getD 0) := by simp
          _ ≤ sMaxF (max lo ((some p : Option Int).getD 0)) ccs := sMaxF_le_self ccs _
          _ = sMaxN lo (Node.mk t l (some p) ep ccs) := rfl
      have hAE : sMaxN lo (Node.mk t l (some p) ep ccs) ≤ E := by
        calc sMaxN lo (Node.mk t l (some p) ep ccs)
            ≤ sMaxF (sMaxN lo (Node.mk t l (some p) ep ccs)) rest := sMaxF_le_self rest _
          _ = sMaxF lo (NodeList.cons (Node.mk t l (some p) ep ccs) rest) := rfl
          _ ≤ E := hmax
      have hccsMax : sMaxF p ccs ≤ sMaxN lo (Node.mk t l (some p) ep ccs) := by
        have : sMaxF p ccs ≤ sMaxF (max lo ((some p : Option Int).getD 0)) ccs := by
          refine sMaxF_mono ccs p _ ?_
          simp [le_max_right]
        simpa [sMaxN] using this
      cases rest with
      | nil =>
          simp only [assignChildren, assignInto]
          refine ⟨?_, ?_, trivial⟩
          · refine ⟨p, E, rfl, rfl, by omega, le_trans hpA hAE, le_rfl, ?_⟩
            have := ihc p E docN hccs (by omega) (le_trans hccsMax hAE)
            exact finForest_mono _ (p + 1) p E (by omega) this
          · simp [Node.end_page]
      | cons next rest' =>
          obtain ⟨hnodeN, hrest'chain⟩ := hrestchain
          cases next with
          | mk t2 l2 sp2 ep2 ccs2 =>
              obtain ⟨q, hsp2, hAq, hccs2⟩ := hnodeN
              subst hsp2
              have hpq : p < q := lt_of_le_of_lt hpA hAq
              have hqE : q ≤ E := by
                calc q ≤ max (sMaxN lo (Node.mk t l (some p) ep ccs)) q := le_max_right _ _
                  _ = max (sMaxN lo (Node.mk t l (some p) ep ccs))
                      ((some q : Option Int).getD 0) := by simp
                  _ ≤ sMaxF (max (sMaxN lo (Node.mk t l (some p) ep ccs))
                      ((some q : Option Int).getD 0)) ccs2 := sMaxF_le_self ccs2 _
                  _ = sMaxN (sMaxN lo (Node.mk t l (some p) ep ccs))
                      (Node.mk t2 l2 (some q) ep2 ccs2) := rfl
                  _ ≤ sMaxF (sMaxN (sMaxN lo (Node.mk t l (some p) ep ccs))
                      (Node.mk t2 l2 (some q) ep2 ccs2)) rest' := sMaxF_le_self rest' _
                  _ = sMaxF lo (NodeList.cons (Node.mk t l (some p) ep ccs)
                      (NodeList.cons (Node.mk t2 l2 (some q) ep2 ccs2) rest')) := rfl
                  _ ≤ E := hmax
              have hnewEnd :
                  max (pyOrI (some p) 1) (pyOrI2 (some q) (some p) 1 - 1) = q - 1 := by
                have hpne : p ≠ 0 := by omega
                have hqne : q ≠ 0 := by omega
                simp only [pyOrI, pyOrI2, if_neg hpne, if_neg hqne]
                omega
              simp only [assignChildren, Node.start_page, assignInto, hnewEnd]
              refine ⟨?_, ?_, ?_⟩
              · refine ⟨p, q - 1, rfl, rfl, by omega, by omega, by omega, ?_⟩
                have hbound : sMaxF p ccs ≤ q - 1 := by
                  have := lt_of_le_of_lt hccsMax hAq
                  omega
                have := ihc p (q - 1) docN hccs (by omega) hbound
                exact finForest_mono _ (p + 1) p (q - 1) (by omega) this
              · refine ⟨q - 1, ?_, ?_⟩
                · simp [Node.end_page]
                · cases hrest2 : rest' with
                  | nil => simp [assignChildren, assignInto, Node.start_page]
                  | cons n3 r3 => simp [assignChildren, assignInto, Node.start_page]
              · have hchainrest : forestChain (sMaxN lo (Node.mk t l (some p) ep ccs))
                    (NodeList.cons (Node.mk t2 l2 (some q) ep2 ccs2) rest') :=
                  ⟨⟨q, rfl, hAq, hccs2⟩, hrest'chain⟩
                have hmaxrest : sMaxF (sMaxN lo (Node.mk t l (some p) ep ccs))
                    (NodeList.cons (Node.mk t2 l2 (some q) ep2 ccs2) rest') ≤ E := hmax
                have := ihr (sMaxN lo (Node.mk t l (some p) ep ccs)) E docN
                  hchainrest (le_trans hlo (sMaxN_le_self _ lo)) hmaxrest
                refine finForest_mono _ _ _ E ?_ this
                omega

end SustainSpec

namespace SustainSpec

/-! ### Idempotence of finalization -/

theorem assignChildren_head_start (docN : Int) (pe : Option Int) (c : Node) (rest : NodeList) :
    assignChildren docN pe (.cons c rest) =
      .cons (assignInto docN
        (match rest with
         | .cons next _ => max (pyOrI c.start_page 1) (pyOrI2 next.start_page c.start_page 1 - 1)
         | .nil => match pe with | some e => e | none => docN) c)
        (assignChildren docN pe rest) := rfl

theorem assign_idem :
    ∀ (cs : NodeList) (pe : Option Int) (docN : Int),
      assignChildren docN pe (assignChildren docN pe cs) = assignChildren docN pe cs := by
  intro cs
  induction cs using forestInd with
  | h0 => intro pe docN; rfl
  | h1 t l sp ep ccs rest ihc ihr =>
      intro pe docN
      cases rest with
      | nil =>
          simp [assignChildren, assignInto, Node.start_page, ihc]
      | cons next rest' =>
          cases next with
          | mk t2 l2 sp2 ep2 ccs2 =>
              simp [assignChildren, assignInto, Node.start_page, ihc]
              have := ihr pe docN
              simpa [assignChildren, assignInto, Node.start_page] using this

/-! ### Flattening lemmas -/

theorem pyStrip_empty : pyStrip "" = "" := rfl

theorem slice_text_empty (pages : List String) (sp ep : Int)
    (h : (pages.length : Int) < sp) (h1 : 1 ≤ sp) :
    pyStrip (String.intercalate "\n" (listSlice pages (sp - 1).toNat ep.toNat)) = "" := by
  have hdrop : pages.drop (sp - 1).toNat = [] := List.drop_eq_nil_of_le (by omega)
  have hsl : listSlice pages (sp - 1).toNat ep.toNat = [] := by
    simp [listSlice, hdrop]
    omega
  rw [hsl]
  rfl

theorem walk_bounds :
    ∀ (F : NodeList) (pages_text path : List String) (s : Section),
      s ∈ walkF pages_text path F →
      1 ≤ s.start_page ∧ s.start_page ≤ s.end_page ∧
        ((pages_text.length : Int) < s.start_page → s.text = "") := by
  intro F
  induction F using forestInd with
  | h0 => intro pages path s hs; simp [walkF] at hs
  | h1 t l sp0 ep0 cs rest ihc ihr =>
      intro pages path s hs
      simp only [walkF, walkOne, List.mem_append, List.mem_cons] at hs
      rcases hs with (hs | hs) | hs
      · subst hs
        refine ⟨le_max_left 1 _, le_max_left _ _, ?_⟩
        intro hbig
        exact slice_text_empty pages _ _ hbig (le_max_left 1 _)
      · exact ihc pages _ s hs
      · exact ihr pages path s hs

/-! Root-to-node title paths (root excluded, the node itself included as the
last element); this is the spec-side description of the `path` field, defined
independently of `walkF` for the refinement statement. -/
mutual
def titlePathsN (pre : List String) : Node → List (List String)
  | Node.mk t _ _ _ cs => (pre ++ [t]) :: titlePathsF (pre ++ [t]) cs
def titlePathsF (pre : List String) : NodeList → List (List String)
  | .nil => []
  | .cons c rest => titlePathsN pre c ++ titlePathsF pre rest
end

theorem walk_paths :
    ∀ (F : NodeList) (pages_text path : List String),
      (walkF pages_text path F).map Section.path = titlePathsF path F := by
  intro F
  induction F using forestInd with
  | h0 => intro pages path; simp [walkF, titlePathsF]
  | h1 t l sp0 ep0 cs rest ihc ihr =>
      intro pages path
      simp [walkF, walkOne, titlePathsF, titlePathsN, ihc, ihr]

theorem walk_path_last :
    ∀ (F : NodeList) (pages_text path : List String) (s : Section),
      s ∈ walkF pages_text path F → s.path.getLast? = some s.title := by
  intro F
  induction F using forestInd with
  | h0 => intro pages path s hs; simp [walkF] at hs
  | h1 t l sp0 ep0 cs rest ihc ihr =>
      intro pages path s hs
      simp only [walkF, walkOne, List.mem_append, List.mem_cons] at hs
      rcases hs with (hs | hs) | hs
      · subst hs
        simp [List.getLast?_concat]
      · exact ihc pages _ s hs
      · exact ihr pages path s hs

end SustainSpec

namespace SustainSpec

/-! ### Claim theorems -/

/-- Field computation of `finalize_tree`: root range is `[1, n]` and the
children get end pages assigned against parent end `n`. -/
theorem finalize_fields (root : Node) (n : Int) :
    (finalize_tree root n).start_page = some 1 ∧
    (finalize_tree root n).end_page = some n ∧
    (finalize_tree root n).children = assignChildren n (some n) root.children := by
  cases root with
  | mk t l sp ep cs => exact ⟨rfl, rfl, rfl⟩

/-- C1 (amended): for an entry list sorted by `(page, level, title)` whose
pages are strictly increasing (no two entries share a page), with every
level ≥ 1 and every page within `[1, doc_page_count]`, and
`doc_page_count ≥ 1`, the finalized tree has root range `[1, doc_page_count]`
and satisfies the full range invariant (`finForest`): every node's
`start_page ≤ end_page`, every child range lies within its parent's range,
consecutive children are contiguous (`child.end_page = next.start_page - 1`),
and the last child ends exactly at its parent's `end_page`. -/
theorem c1_range_invariant (entries : List (Int × String × Int)) (docN : Int)
    (hsorted : List.Pairwise (fun a b => entryKeyLE a b = true) entries)
    (hstrict : List.Pairwise (fun a b : Int × String × Int => a.2.2 < b.2.2) entries)
    (hlevel : ∀ e ∈ entries, 1 ≤ e.1)
    (hpage1 : ∀ e ∈ entries, 1 ≤ e.2.2)
    (hpageN : ∀ e ∈ entries, e.2.2 ≤ docN)
    (hdoc : 1 ≤ docN) :
    (finalize_tree (build_tree_from_entries entries) docN).start_page = some 1 ∧
    (finalize_tree (build_tree_from_entries entries) docN).end_page = some docN ∧
    finForest 1 docN (finalize_tree (build_tree_from_entries entries) docN).children := by
  have hpre := build_preorder entries
  have hpages : (forestTriples (build_tree_from_entries entries).children).map (fun x => x.2.2)
      = (entries.map (fun e => e.2.2)).map some := by
    rw [hpre]
    simp [List.map_map, Function.comp_def]
  have hchain : forestChain 0 (build_tree_from_entries entries).children := by
    refine chain_of_pairwise _ 0 (entries.map (fun e => e.2.2)) hpages ?_ ?_
    · exact List.pairwise_map.mpr hstrict
    · intro p hp
      obtain ⟨e, he, rfl⟩ := List.mem_map.mp hp
      have := hpage1 e he
      omega
  have hpd : pagesD (build_tree_from_entries entries).children =
      entries.map (fun e => e.2.2) := by
    have h2 : pagesD (build_tree_from_entries entries).children =
        ((forestTriples (build_tree_from_entries entries).children).map
          (fun x => x.2.2)).map (fun o => o.getD 0) := by
      simp [pagesD, List.map_map]
    rw [h2, hpages]
    simp [Function.comp_def]
  have hmax : sMaxF 0 (build_tree_from_entries entries).children ≤ docN := by
    rw [sMaxF_foldl, hpd]
    refine foldl_max_le _ 0 docN (by omega) ?_
    intro y hy
    obtain ⟨e, he, rfl⟩ := List.mem_map.mp hy
    exact hpageN e he
  have hfin := fin_of_chain (build_tree_from_entries entries).children 0 docN docN
    hchain le_rfl hmax
  obtain ⟨h1, h2, h3⟩ := finalize_fields (build_tree_from_entries entries) docN
  refine ⟨h1, h2, ?_⟩
  rw [h3]
  simpa using hfin

/-- C1 witness: a concrete sorted entry list with strictly increasing pages
satisfies the hypotheses and the finalized tree satisfies the invariant. -/
theorem c1_witness :
    List.Pairwise (fun a b => entryKeyLE a b = true)
        [((1:Int),"A",(1:Int)), ((2:Int),"B",(2:Int))] ∧
    finForest 1 3 (finalize_tree (build_tree_from_entries
        [((1:Int),"A",(1:Int)), ((2:Int),"B",(2:Int))]) 3).children :=
  ⟨by decide,
    (c1_range_invariant [((1:Int),"A",(1:Int)), ((2:Int),"B",(2:Int))] 3
      (by decide) (by decide) (by decide) (by decide) (by decide) (by decide)).2.2⟩

/-- C1 counterexample: the sorted entry list `[(1,"A",5), (1,"B",5)]` (levels
≥ 1, pages ≥ 1) finalized with `doc_page_count = 3` yields A = [5,5] and
B = [5,3], violating `start_page ≤ end_page`, the within-parent bound, and
the contiguity equation — so the claim fails as stated for entry lists that
are merely sorted. -/
theorem c1_counterexample :
    finalize_tree (build_tree_from_entries
        [((1:Int),"A",(5:Int)), ((1:Int),"B",(5:Int))]) 3 =
      Node.mk "ROOT" 0 (some 1) (some 3)
        (.cons (Node.mk "A" 1 (some 5) (some 5) .nil)
          (.cons (Node.mk "B" 1 (some 5) (some 3) .nil) .nil)) ∧
    ¬ finForest 1 3
        (.cons (Node.mk "A" 1 (some 5) (some 5) .nil)
          (.cons (Node.mk "B" 1 (some 5) (some 3) .nil) .nil)) := by
  refine ⟨rfl, ?_⟩
  intro h
  obtain ⟨hA, hadj, hB, -⟩ := h
  obtain ⟨s, e, hs, he, h3, h4, h5, -⟩ := hB
  simp [Node.start_page, Node.end_page] at hs he
  omega

/-- C2: under strategy `auto` the cascade is outline, then TOC, then
headings, and the first non-empty result wins: a non-empty outline is used
exclusively (the result equals the explicit outline pipeline and the
`outline`-only mode, with strategy name "outline"); with an absent/empty
outline a non-empty TOC parse wins; with both abstaining non-empty heading
detection wins. -/
theorem c2_strategy_priority (pages_text : List String) (m : Nat) :
    (∀ o : List (Int × String × Int), o ≠ [] →
      parse_pdf pages_text (some o) "auto" m =
          Except.ok (pipelineResult o "outline" pages_text) ∧
      parse_pdf pages_text (some o) "auto" m =
          parse_pdf pages_text (some o) "outline" m) ∧
    (∀ outline : Option (List (Int × String × Int)),
      (outline = none ∨ outline = some []) →
      find_toc_pages pages_text m ≠ [] →
      parse_toc_entries_from_pages pages_text (find_toc_pages pages_text m) ≠ [] →
      parse_pdf pages_text outline "auto" m =
        Except.ok (pipelineResult
          (parse_toc_entries_from_pages pages_text (find_toc_pages pages_text m))
          "toc" pages_text)) ∧
    (∀ outline : Option (List (Int × String × Int)),
      (outline = none ∨ outline = some []) →
      parse_toc_entries_from_pages pages_text (find_toc_pages pages_text m) = [] →
      detect_headings pages_text ≠ [] →
      parse_pdf pages_text outline "auto" m =
        Except.ok (pipelineResult (detect_headings pages_text) "headings" pages_text)) := by
  refine ⟨?_, ?_, ?_⟩
  · intro o ho
    constructor <;> simp [parse_pdf, List.isEmpty_iff, ho]
  · intro outline houtline htocp htoce
    rcases houtline with h | h <;> subst h <;>
      simp [parse_pdf, List.isEmpty_iff, htocp, htoce]
  · intro outline houtline htoce hhead
    rcases houtline with h | h <;> subst h <;>
      by_cases hfp : find_toc_pages pages_text m = [] <;>
        simp [parse_pdf, List.isEmpty_iff, hfp, htoce, hhead]

/-- C2 witness: a one-entry outline wins under `auto` on a one-page document. -/
theorem c2_witness :
    parse_pdf ["x"] (some [((1:Int),"T",(1:Int))]) "auto" 8 =
      Except.ok (pipelineResult [((1:Int),"T",(1:Int))] "outline" ["x"]) :=
  ((c2_strategy_priority ["x"] 8).1 [((1:Int),"T",(1:Int))] (by decide)).1

/-- C3: the concrete scenario
`[(1,"Intro",1), (2,"Sub A",2), (2,"Sub B",4), (1,"Conclusion",6)]` with
`doc_page_count = 8` builds and finalizes to
root[1-8] → Intro[1-5]{Sub A[2-3], Sub B[4-5]}, Conclusion[6-8], and for any
page text the flattening yields exactly those 4 sections with those titles
and ranges in that order. -/
theorem c3_concrete_scenario (pages_text : List String) :
    finalize_tree (build_tree_from_entries
        [((1:Int), "Intro", (1:Int)), ((2:Int), "Sub A", (2:Int)),
         ((2:Int), "Sub B", (4:Int)), ((1:Int), "Conclusion", (6:Int))]) 8 =
      Node.mk "ROOT" 0 (some 1) (some 8)
        (.cons (Node.mk "Intro" 1 (some 1) (some 5)
            (.cons (Node.mk "Sub A" 2 (some 2) (some 3) .nil)
              (.cons (Node.mk "Sub B" 2 (some 4) (some 5) .nil) .nil)))
          (.cons (Node.mk "Conclusion" 1 (some 6) (some 8) .nil) .nil)) ∧
    (flatten_sections (finalize_tree (build_tree_from_entries
        [((1:Int), "Intro", (1:Int)), ((2:Int), "Sub A", (2:Int)),
         ((2:Int), "Sub B", (4:Int)), ((1:Int), "Conclusion", (6:Int))]) 8) pages_text).map
      (fun s => (s.title, s.start_page, s.end_page)) =
      [("Intro", 1, 5), ("Sub A", 2, 3), ("Sub B", 4, 5), ("Conclusion", 6, 8)] ∧
    (flatten_sections (finalize_tree (build_tree_from_entries
        [((1:Int), "Intro", (1:Int)), ((2:Int), "Sub A", (2:Int)),
         ((2:Int), "Sub B", (4:Int)), ((1:Int), "Conclusion", (6:Int))]) 8) pages_text).length = 4 := by
  refine ⟨rfl, ?_, ?_⟩ <;>
    rw [show finalize_tree (build_tree_from_entries
          [((1:Int), "Intro", (1:Int)), ((2:Int), "Sub A", (2:Int)),
           ((2:Int), "Sub B", (4:Int)), ((1:Int), "Conclusion", (6:Int))]) 8 =
        Node.mk "ROOT" 0 (some 1) (some 8)
          (.cons (Node.mk "Intro" 1 (some 1) (some 5)
              (.cons (Node.mk "Sub A" 2 (some 2) (some 3) .nil)
                (.cons (Node.mk "Sub B" 2 (some 4) (some 5) .nil) .nil)))
            (.cons (Node.mk "Conclusion" 1 (some 6) (some 8) .nil) .nil)) from rfl] <;>
    simp [flatten_sections, Node.children, walkF, walkOne, pyOrI]

/-- C3 witness: the scenario instantiated on an 8-page text. -/
theorem c3_witness :
    (flatten_sections (finalize_tree (build_tree_from_entries
        [((1:Int), "Intro", (1:Int)), ((2:Int), "Sub A", (2:Int)),
         ((2:Int), "Sub B", (4:Int)), ((1:Int), "Conclusion", (6:Int))]) 8)
      ["a","b","c","d","e","f","g","h"]).length = 4 :=
  (c3_concrete_scenario ["a","b","c","d","e","f","g","h"]).2.2

/-- C4: for entries of level ≥ 1 the builder produces the synthetic level-0
"ROOT" node whose forest satisfies strict parent-child level increase
(`forestLevels 0`), and whose pre-order equals the input entry list —
so siblings appear in input order, and an equal-level consecutive pair can
never be nested (the second would have to be the first's first child, which
strictness forbids). -/
theorem c4_builder_wellformed (entries : List (Int × String × Int))
    (h : ∀ e ∈ entries, 1 ≤ e.1) :
    (build_tree_from_entries entries).title = "ROOT" ∧
    (build_tree_from_entries entries).level = 0 ∧
    forestLevels 0 (build_tree_from_entries entries).children ∧
    forestTriples (build_tree_from_entries entries).children =
      entries.map (fun e => (e.1, pyStrip e.2.1, some e.2.2)) := by
  refine ⟨?_, ?_, build_levels entries h, build_preorder entries⟩ <;>
    simp [build_tree_from_entries, Node.title, Node.level]

/-- C4 witness: two equal-level consecutive entries become siblings in input
order under the level-0 root. -/
theorem c4_witness :
    forestLevels 0 (build_tree_from_entries
        [((1:Int),"B",(1:Int)), ((1:Int),"A",(2:Int))]).children ∧
    forestTriples (build_tree_from_entries
        [((1:Int),"B",(1:Int)), ((1:Int),"A",(2:Int))]).children =
      [((1:Int), "B", some (1:Int)), ((1:Int), "A", some (2:Int))] :=
  ⟨(c4_builder_wellformed [((1:Int),"B",(1:Int)), ((1:Int),"A",(2:Int))]
      (by decide)).2.2.1,
   by
    rw [(c4_builder_wellformed [((1:Int),"B",(1:Int)), ((1:Int),"A",(2:Int))]
      (by decide)).2.2.2]
    decide⟩

/-- C5: finalization is idempotent — applying `finalize_tree` a second time
with the same page count returns the identical tree (hence identical
`start_page`/`end_page` on every node), for every tree and page count. -/
theorem c5_finalize_idempotent (t : Node) (n : Int) :
    finalize_tree (finalize_tree t n) n = finalize_tree t n := by
  cases t with
  | mk a b c d cs => simp [finalize_tree, assign_idem]

/-- C5 witness: idempotence at a concrete tree and page count. -/
theorem c5_witness :
    finalize_tree (finalize_tree (Node.mk "X" 1 (some 2) none .nil) 8) 8 =
      finalize_tree (Node.mk "X" 1 (some 2) none .nil) 8 :=
  c5_finalize_idempotent (Node.mk "X" 1 (some 2) none .nil) 8

/-- C6: if every strategy attempted under the requested mode abstains (empty
entry list), `parse_pdf` fails with the hard `ValueError` and produces no
result — stated for each of the four modes. -/
theorem c6_all_abstain_errors (pages_text : List String)
    (o : Option (List (Int × String × Int))) (m : Nat) :
    ((o = none ∨ o = some []) →
      parse_pdf pages_text o "outline" m = Except.error noStructureMsg) ∧
    (parse_toc_entries_from_pages pages_text (find_toc_pages pages_text m) = [] →
      parse_pdf pages_text o "toc" m = Except.error noStructureMsg) ∧
    (detect_headings pages_text = [] →
      parse_pdf pages_text o "headings" m = Except.error noStructureMsg) ∧
    ((o = none ∨ o = some []) →
      parse_toc_entries_from_pages pages_text (find_toc_pages pages_text m) = [] →
      detect_headings pages_text = [] →
      parse_pdf pages_text o "auto" m = Except.error noStructureMsg) := by
  refine ⟨?_, ?_, ?_, ?_⟩
  · intro ho
    rcases ho with h | h <;> subst h <;> simp [parse_pdf, List.isEmpty_iff]
  · intro htoc
    by_cases hfp : find_toc_pages pages_text m = [] <;>
      simp [parse_pdf, List.isEmpty_iff, hfp, htoc]
  · intro hhead
    simp [parse_pdf, List.isEmpty_iff, hhead]
  · intro ho htoc hhead
    rcases ho with h | h <;> subst h <;>
      by_cases hfp : find_toc_pages pages_text m = [] <;>
        simp [parse_pdf, List.isEmpty_iff, hfp, htoc, hhead]

/-- C6 witness: a page with no TOC marker and no heading-like line makes
every strategy abstain, and `auto` fails hard. -/
theorem c6_witness :
    parse_toc_entries_from_pages ["hello world."]
        (find_toc_pages ["hello world."] 8) = [] ∧
    detect_headings ["hello world."] = [] ∧
    parse_pdf ["hello world."] none "auto" 8 = Except.error noStructureMsg :=
  ⟨by decide, by decide,
    (c6_all_abstain_errors ["hello world."] none 8).2.2.2
      (Or.inl rfl) (by decide) (by decide)⟩

/-- C7 (amended): `parse_pdf` performs no upfront input validation.  An
unrecognised strategy value is not rejected early: every strategy branch is
skipped and the pipeline fails with the same `ValueError` used when no
structure is detected.  An empty page-text sequence is not rejected either:
with a non-empty outline the pipeline completes successfully. -/
theorem c7_no_upfront_validation :
    (∀ (pages_text : List String) (o : Option (List (Int × String × Int)))
        (s : String) (m : Nat),
      s ≠ "auto" → s ≠ "outline" → s ≠ "toc" → s ≠ "headings" →
      parse_pdf pages_text o s m = Except.error noStructureMsg) ∧
    (∀ (e : Int × String × Int) (rest : List (Int × String × Int)) (m : Nat),
      okB (parse_pdf [] (some (e :: rest)) "auto" m) = true) := by
  constructor
  · intro pages o s m h1 h2 h3 h4
    simp [parse_pdf, h1, h2, h3, h4]
  · intro e rest m
    simp [parse_pdf, okB, List.isEmpty_iff]

/-- C7 witness: a concrete unknown strategy falls through to the
no-structure error. -/
theorem c7_witness :
    parse_pdf ["x"] none "weird" 2 = Except.error noStructureMsg :=
  c7_no_upfront_validation.1 ["x"] none "weird" 2
    (by decide) (by decide) (by decide) (by decide)

/-- C7 counterexample: an empty page-text sequence with a non-empty outline
is processed successfully (no `InvalidInput` rejection exists), and an
out-of-set strategy string produces the `NoStructureDetected`-style
`ValueError`, not an early input-validation failure. -/
theorem c7_counterexample :
    okB (parse_pdf [] (some [((1:Int), "T", (1:Int))]) "auto" 10) = true ∧
    parse_pdf ["x"] none "bogus" 10 = Except.error noStructureMsg :=
  ⟨rfl, rfl⟩

/-- C8 (amended): every Section's `path` equals the ordered list of titles
on the path from the root to its node, excluding the synthetic root but
including the node's own title as the last element (`titlePathsF` is the
independent root-to-node description). -/
theorem c8_paths_include_self (root : Node) (pages_text : List String) :
    (flatten_sections root pages_text).map Section.path = titlePathsF [] root.children ∧
    ∀ s ∈ flatten_sections root pages_text, s.path.getLast? = some s.title :=
  ⟨walk_paths root.children pages_text [],
    fun s hs => walk_path_last root.children pages_text [] s hs⟩

/-- C8 witness: the path equation at a concrete two-level tree. -/
theorem c8_witness :
    (flatten_sections (Node.mk "R" 0 (some 1) (some 1)
        (.cons (Node.mk "T" 1 (some 1) (some 1) .nil) .nil)) ["pg"]).map Section.path =
      titlePathsF [] (Node.mk "R" 0 (some 1) (some 1)
        (.cons (Node.mk "T" 1 (some 1) (some 1) .nil) .nil)).children :=
  (c8_paths_include_self (Node.mk "R" 0 (some 1) (some 1)
      (.cons (Node.mk "T" 1 (some 1) (some 1) .nil) .nil)) ["pg"]).1

/-- C8 counterexample: a section whose node is a direct child of the root
has no ancestors besides the root, yet its `path` is `["T"]`, not `[]` —
the `path` field includes the node's own title. -/
theorem c8_counterexample :
    (flatten_sections (finalize_tree (build_tree_from_entries
        [((1:Int), "T", (1:Int))]) 1) ["pg"]).map Section.path = [["T"]] ∧
    [["T"]] ≠ [([] : List String)] :=
  ⟨rfl, by decide⟩

/-- C9: the TOC line `"Climate Strategy .......... 12"` is classified as a
TOC entry line and parsed into exactly `(level=1, title="Climate Strategy",
page=12)`: the trailing number becomes the page, the dot leaders are
stripped, and the level defaults to 1. -/
theorem c9_toc_line_scenario :
    looks_like_toc_line "Climate Strategy .......... 12" = true ∧
    parse_toc_entries_from_pages ["Climate Strategy .......... 12"] [0] =
      [((1:Int), "Climate Strategy", (12:Int))] := by
  constructor <;> decide

/-- C10: `flatten_sections` is total and clamps: every produced section
satisfies `1 ≤ start_page ≤ end_page` for every tree (including trees with
unset, inverted or out-of-range pages) and every page list, and its sliced
text is empty whenever the clamped range lies wholly beyond the last page. -/
theorem c10_flatten_total_and_clamped (root : Node) (pages_text : List String)
    (s : Section) (hs : s ∈ flatten_sections root pages_text) :
    1 ≤ s.start_page ∧ s.start_page ≤ s.end_page ∧
      ((pages_text.length : Int) < s.start_page → s.text = "") :=
  walk_bounds root.children pages_text [] s hs

/-- C10 witness: a node with `start_page = 100` and `end_page = 2` on a
one-page document flattens to the clamped range `[100, 100]` with empty text. -/
theorem c10_witness :
    1 ≤ (100 : Int) ∧ (100 : Int) ≤ 100 ∧
      (((["a"] : List String).length : Int) < 100 → ("" : String) = "") :=
  c10_flatten_total_and_clamped
    (Node.mk "R" 0 none none (.cons (Node.mk "X" 1 (some 100) (some 2) .nil) .nil))
    ["a"]
    { id := "X|100|100", title := "X", level := 1, start_page := 100, end_page := 100,
      text := "", path := ["X"] }
    (by rw [show flatten_sections
        (Node.mk "R" 0 none none (.cons (Node.mk "X" 1 (some 100) (some 2) .nil) .nil)) ["a"] =
        [{ id := "X|100|100", title := "X", level := 1, start_page := 100, end_page := 100,
           text := "", path := ["X"] }] from rfl]
        simp)

end SustainSpec
